import Mathlib

/-!
# Spatial Graph Engine — shallow embedding

A Lean embedding of the Spatial Graph Engine of the `vuejs.holon`
repository: the graph store (`src/stores/graph.ts`), the geometry
resolver (`src/composables/useGeometry.ts`), the docking trait
(`src/composables/traits/useDockable.ts`), the anchor resolver
(`src/composables/traits/useAnchorable.ts`) and the history engine
(`src/composables/traits/useUndoable.ts`).

Conventions of the embedding:
* JavaScript numbers are modelled as rationals (`ℚ`);
* the `Record<string, Node>` collections (which preserve insertion order
  for the non-numeric `nanoid` keys used by the store) are modelled as
  association lists `List Node` / `List Edge`, looked up by the `id`
  field;
* the `while` loops that follow `parentId` upward are modelled with an
  explicit fuel argument; the engine runs them with fuel equal to the
  number of nodes in the store, which is enough whenever every parent
  chain terminates (`rootedWithin`), i.e. on every cycle-free store;
* `nanoid()` is modelled as an explicitly supplied fresh id.
-/

namespace Holon

/-- Geometry record `{x, y, w, h}` of a node (`src/types`). -/
structure Geometry where
  x : ℚ
  y : ℚ
  w : ℚ
  h : ℚ
deriving DecidableEq, Repr

/-- A node of the graph (`src/types`): flat storage, containment encoded
only through `parentId`.  The `type` field is the node-kind string; the
geometry code only distinguishes `"container"`. -/
structure Node where
  id : String
  parentId : Option String
  type : String
  geometry : Geometry
deriving DecidableEq, Repr

/-- An edge of the graph (`src/types`). -/
structure Edge where
  id : String
  sourceId : String
  targetId : String
  routing : String
deriving DecidableEq, Repr

/-- The graph store state: the two flat collections owned by
`useGraphStore` (`src/stores/graph.ts`). -/
structure GraphState where
  nodes : List Node
  edges : List Edge
deriving DecidableEq, Repr

/-- `nodes.value[id]` — key access into the node record. -/
def lookupNode (ns : List Node) (id : String) : Option Node :=
  ns.find? (fun n => n.id = id)

/-- `edges.value[id]` — key access into the edge record. -/
def lookupEdge (es : List Edge) (id : String) : Option Edge :=
  es.find? (fun e => e.id = id)

/-! ## Geometry resolver (`src/composables/useGeometry.ts`) -/

/-- The `while (currentNode.parentId)` accumulation loop of
`getNodeAbsolutePosition`: starting from `cur`'s own relative `(x,y)`,
adds the `(x,y)` of each ancestor found by following `parentId`, stopping
at a root (`parentId = null`) or at a dangling parent reference.  `fuel`
bounds the number of iterations. -/
def ancWalk (ns : List Node) : Nat → Node → ℚ × ℚ
  | 0, cur => (cur.geometry.x, cur.geometry.y)
  | fuel + 1, cur =>
    match cur.parentId with
    | none => (cur.geometry.x, cur.geometry.y)
    | some pid =>
      match lookupNode ns pid with
      | none => (cur.geometry.x, cur.geometry.y)
      | some p =>
        let rest := ancWalk ns fuel p
        (cur.geometry.x + rest.1, cur.geometry.y + rest.2)

/-- `getNodeAbsolutePosition(nodeId)` (`useGeometry.ts`, lines 13–31;
the local copy in `useAnchorable.ts`, lines 43–61, implements the same
walk): absolute (world) coordinates of a node, `{x:0,y:0}` when the id
is absent. -/
def getNodeAbsolutePosition (ns : List Node) (nodeId : String) : ℚ × ℚ :=
  match lookupNode ns nodeId with
  | none => (0, 0)
  | some n => ancWalk ns ns.length n

/-- `isPointInsideNode(nodeId, absX, absY)` (`useGeometry.ts`, lines
67–78): absolute-coordinate point-in-rectangle test, `false` when the id
is absent. -/
def isPointInsideNode (ns : List Node) (nodeId : String) (absX absY : ℚ) : Bool :=
  match lookupNode ns nodeId with
  | none => false
  | some node =>
    let nodePos := getNodeAbsolutePosition ns nodeId
    absX ≥ nodePos.1 && absX ≤ nodePos.1 + node.geometry.w &&
    absY ≥ nodePos.2 && absY ≤ nodePos.2 + node.geometry.h

/-- The `while` loop of `isDescendantOf` (`useGeometry.ts`, lines
83–90): walks `parentId` upward from `cur`, returning `true` as soon as
the parent id equals `anc` (the comparison happens before the parent is
resolved, so a dangling parent id still matches). -/
def isDescAux (ns : List Node) : Nat → Node → String → Bool
  | 0, _, _ => false
  | fuel + 1, cur, anc =>
    match cur.parentId with
    | none => false
    | some pid =>
      if pid = anc then true
      else
        match lookupNode ns pid with
        | none => false
        | some p => isDescAux ns fuel p anc

/-- `isDescendantOf(nodeId, potentialAncestorId)` (`useGeometry.ts`,
lines 83–90). -/
def isDescendantOf (ns : List Node) (nodeId potentialAncestorId : String) : Bool :=
  match lookupNode ns nodeId with
  | none => false
  | some n => isDescAux ns ns.length n potentialAncestorId

/-- The ids encountered by the upward `parentId` walk from `cur`
(bounded by `fuel`): the chain the code's `isDescendantOf` loop
inspects. -/
def ancestorIds (ns : List Node) : Nat → Node → List String
  | 0, _ => []
  | fuel + 1, cur =>
    match cur.parentId with
    | none => []
    | some pid =>
      pid :: (match lookupNode ns pid with
              | none => []
              | some p => ancestorIds ns fuel p)

/-- The resolved ancestor nodes encountered by the upward walk from
`cur` (bounded by `fuel`). -/
def ancestorNodes (ns : List Node) : Nat → Node → List Node
  | 0, _ => []
  | fuel + 1, cur =>
    match cur.parentId with
    | none => []
    | some pid =>
      match lookupNode ns pid with
      | none => []
      | some p => p :: ancestorNodes ns fuel p

/-- The `while` loop of `getNodeDepth` (`useGeometry.ts`, lines
128–136). -/
def depthAux (ns : List Node) : Nat → Node → Nat
  | 0, _ => 0
  | fuel + 1, cur =>
    match cur.parentId with
    | none => 0
    | some pid =>
      match lookupNode ns pid with
      | none => 1
      | some p => 1 + depthAux ns fuel p

/-- `getNodeDepth(nodeId)` (`useGeometry.ts`, lines 128–136). -/
def getNodeDepth (ns : List Node) (nodeId : String) : Nat :=
  match lookupNode ns nodeId with
  | none => 0
  | some n => depthAux ns ns.length n

/-- The upward walk from `cur` reaches a root or a dangling parent
reference within `fuel` steps: the termination measure for the engine's
parent-chain loops.  Holds for every node of a cycle-free store when
`fuel` is the number of nodes. -/
def rootedWithin (ns : List Node) : Nat → Node → Bool
  | 0, _ => false
  | fuel + 1, cur =>
    match cur.parentId with
    | none => true
    | some pid =>
      match lookupNode ns pid with
      | none => true
      | some p => rootedWithin ns fuel p

/-- `convertCoordinates(nodeId, fromParentId, toParentId)`
(`useGeometry.ts`, lines 141–163).  `fromParentId` is accepted but — as
in the source — never read: the conversion starts from the node's
current absolute position. -/
def convertCoordinates (ns : List Node) (nodeId : String)
    (fromParentId toParentId : Option String) : ℚ × ℚ :=
  match lookupNode ns nodeId with
  | none => (0, 0)
  | some _ =>
    let absolutePos := getNodeAbsolutePosition ns nodeId
    match toParentId with
    | none => absolutePos
    | some tp =>
      let newParentPos := getNodeAbsolutePosition ns tp
      (absolutePos.1 - newParentPos.1, absolutePos.2 - newParentPos.2)

/-! ### Drop-target resolution (`findContainerAtPoint`) -/

/-- Stable insertion of a `(node, depth)` pair into a list sorted by
decreasing depth: the JS `Array.prototype.sort` with comparator
`(a, b) => b.depth - a.depth` is a stable descending sort, whose output
this insertion sort reproduces. -/
def insertByDepthDesc (x : Node × Nat) : List (Node × Nat) → List (Node × Nat)
  | [] => [x]
  | y :: ys => if x.2 ≥ y.2 then x :: y :: ys else y :: insertByDepthDesc x ys

/-- Stable sort by decreasing depth (`findContainerAtPoint`'s
`sortedByDepth`). -/
def sortByDepthDesc : List (Node × Nat) → List (Node × Nat)
  | [] => []
  | x :: xs => insertByDepthDesc x (sortByDepthDesc xs)

/-- The `for (const { node } of sortedByDepth)` loop of
`findContainerAtPoint`: skips descendants of `excludeNodeId` (when an
exclude id is supplied) and returns the first remaining candidate whose
absolute bounding box contains the point. -/
def firstContainerHit (ns : List Node) (absX absY : ℚ) (excludeNodeId : Option String) :
    List (Node × Nat) → Option String
  | [] => none
  | (node, _) :: rest =>
    if (match excludeNodeId with
        | some e => isDescendantOf ns node.id e
        | none => false) then
      firstContainerHit ns absX absY excludeNodeId rest
    else if isPointInsideNode ns node.id absX absY then
      some node.id
    else
      firstContainerHit ns absX absY excludeNodeId rest

/-- `findContainerAtPoint(absX, absY, excludeNodeId)` (`useGeometry.ts`,
lines 96–123): deepest container under the point, excluding the node
and its descendants. -/
def findContainerAtPoint (ns : List Node) (absX absY : ℚ)
    (excludeNodeId : Option String) : Option String :=
  let containers := ns.filter (fun n =>
    n.type = "container" &&
    (match excludeNodeId with
     | some e => n.id ≠ e
     | none => true))
  let sortedByDepth := sortByDepthDesc
    (containers.map (fun node => (node, getNodeDepth ns node.id)))
  firstContainerHit ns absX absY excludeNodeId sortedByDepth

/-! ## Graph store actions (`src/stores/graph.ts`) -/

/-- The fields a `Partial<Node>` update may carry at the call sites the
engine uses (`updateNode(id, { parentId, geometry })`). -/
structure NodeUpdates where
  parentId : Option (Option String)
  geometry : Option Geometry
deriving DecidableEq, Repr

/-- `{ ...nodes.value[id], ...updates }` — shallow merge of an update
record into a node. -/
def mergeNode (n : Node) (u : NodeUpdates) : Node :=
  { n with
    parentId := u.parentId.getD n.parentId
    geometry := u.geometry.getD n.geometry }

/-- `createNode(partialNode, parentId)` (`graph.ts`, lines 120–130):
inserts `{...partialNode, id, parentId}` under a freshly generated
`nanoid` (modelled as the explicit `freshId`). -/
def createNode (st : GraphState) (freshId : String)
    (typ : String) (geom : Geometry) (parentId : Option String) : GraphState :=
  { st with nodes := st.nodes ++ [⟨freshId, parentId, typ, geom⟩] }

/-- `updateNode(id, updates)` (`graph.ts`, lines 135–141): replaces the
stored node by `{ ...node, ...updates }` when the id is present, and is
a no-op otherwise. -/
def updateNode (st : GraphState) (id : String) (u : NodeUpdates) : GraphState :=
  match lookupNode st.nodes id with
  | none => st
  | some _ =>
    { st with nodes := st.nodes.map (fun n => if n.id = id then mergeNode n u else n) }

/-- The recursive `collectChildren` of `deleteNode` (`graph.ts`, lines
149–156): ids of all descendants of `pid` found by repeated child-lookup
on `parentId`, in the order the code pushes them. -/
def collectDesc (ns : List Node) : Nat → String → List String
  | 0, _ => []
  | fuel + 1, pid =>
    (ns.filter (fun n => n.parentId = some pid)).flatMap
      (fun c => c.id :: collectDesc ns fuel c.id)

/-- The `toDelete` list of `deleteNode`: the node itself followed by its
collected descendants. -/
def deleteSet (ns : List Node) (id : String) : List String :=
  id :: collectDesc ns ns.length id

/-- Iterated `delete record[id]` over a list of ids. -/
def eraseNodes (ns : List Node) : List String → List Node
  | [] => ns
  | i :: is => eraseNodes (ns.filter (fun n => n.id ≠ i)) is

/-- Iterated `delete record[id]` over a list of edge ids. -/
def eraseEdges (es : List Edge) : List String → List Edge
  | [] => es
  | i :: is => eraseEdges (es.filter (fun e => e.id ≠ i)) is

/-- `deleteNode(id)` (`graph.ts`, lines 146–173): collects the node and
its descendants, deletes every edge touching one of them, then deletes
the nodes themselves. -/
def deleteNode (st : GraphState) (id : String) : GraphState :=
  let toDelete := deleteSet st.nodes id
  let edgesToDelete := (st.edges.filter
    (fun e => toDelete.contains e.sourceId || toDelete.contains e.targetId)).map (·.id)
  { nodes := eraseNodes st.nodes toDelete
    edges := eraseEdges st.edges edgesToDelete }

/-- `createEdge(sourceId, targetId, routing)` (`graph.ts`, lines
178–194): `null` when either endpoint id is absent or an edge already
links the pair in either orientation; otherwise inserts a new edge under
a fresh id and returns it.  Result: `(returned value, new state)`. -/
def createEdge (st : GraphState) (freshId : String)
    (sourceId targetId : String) (routing : String) : Option Edge × GraphState :=
  if (lookupNode st.nodes sourceId).isNone || (lookupNode st.nodes targetId).isNone then
    (none, st)
  else if st.edges.any (fun e =>
      (e.sourceId = sourceId && e.targetId = targetId) ||
      (e.sourceId = targetId && e.targetId = sourceId)) then
    (none, st)
  else
    let newEdge : Edge := ⟨freshId, sourceId, targetId, routing⟩
    (some newEdge, { st with edges := st.edges ++ [newEdge] })

/-- `deleteEdge(id)` (`graph.ts`, lines 199–204). -/
def deleteEdge (st : GraphState) (id : String) : GraphState :=
  match lookupEdge st.edges id with
  | none => st
  | some _ => { st with edges := st.edges.filter (fun e => e.id ≠ id) }

/-- `clearAll()` (`graph.ts`, lines 219–224). -/
def clearAll (_st : GraphState) : GraphState :=
  { nodes := [], edges := [] }

/-! ## Docking trait (`src/composables/traits/useDockable.ts`) -/

/-- `commitDocking()` (`useDockable.ts`, lines 52–78), with the
`potentialParent` ref and `options.nodeId` made explicit arguments.  A
`null` potential parent returns immediately without touching the store;
otherwise, when the candidate differs from the current parent, the node
is reparented with `convertCoordinates`-translated `(x,y)`. -/
def commitDocking (st : GraphState) (nodeId : String)
    (potentialParent : Option String) : GraphState :=
  match potentialParent with
  | none => st
  | some pp =>
    match lookupNode st.nodes nodeId with
    | none => st
    | some node =>
      if some pp ≠ node.parentId then
        let newCoords := convertCoordinates st.nodes nodeId node.parentId (some pp)
        updateNode st nodeId
          ⟨some (some pp),
           some { node.geometry with x := newCoords.1, y := newCoords.2 }⟩
      else
        st

/-- `undockFromParent()` (`useDockable.ts`, lines 81–95): moves the node
to root level, rewriting `(x,y)` to its absolute position; a no-op when
the node is absent or already at root. -/
def undockFromParent (st : GraphState) (nodeId : String) : GraphState :=
  match lookupNode st.nodes nodeId with
  | none => st
  | some node =>
    match node.parentId with
    | none => st
    | some pid =>
      let newCoords := convertCoordinates st.nodes nodeId (some pid) none
      updateNode st nodeId
        ⟨some none,
         some { node.geometry with x := newCoords.1, y := newCoords.2 }⟩

/-! ## Anchor resolver (`src/composables/traits/useAnchorable.ts`) -/

/-- The `AnchorPosition` enum (`useAnchorable.ts`, lines 7–18). -/
inductive AnchorPosition where
  | north | south | east | west
  | northEast | northWest | southEast | southWest
  | center | auto
deriving DecidableEq, Repr

/-- An anchor point: coordinates plus the side/corner classification. -/
structure AnchorPoint where
  x : ℚ
  y : ℚ
  position : AnchorPosition
deriving DecidableEq, Repr

/-- `Math.abs(d) > 0 ? half / Math.abs(d) : Infinity` — the guarded
scale of the edge-intersection math, with `none` standing for the
`Infinity` sentinel. -/
def infDiv (half d : ℚ) : Option ℚ :=
  if |d| > 0 then some (half / |d|) else none

/-- `Math.min` over the infinite-scale sentinel (`Infinity` absorbs). -/
def infMin : Option ℚ → Option ℚ → Option ℚ
  | none, b => b
  | some a, none => some a
  | some a, some b => some (min a b)

/-- `<` over the infinite-scale sentinel: any finite value is below
`Infinity`, and `Infinity < Infinity` is false. -/
def infLt : Option ℚ → Option ℚ → Bool
  | some a, some b => a < b
  | some _, none => true
  | none, _ => false

/-- `getEdgeIntersection(targetX, targetY)` (`useAnchorable.ts`, lines
154–206): the point where the ray from the node's absolute center toward
the target crosses the node's rectangle boundary, together with the
side/corner hit.  A zero direction vector returns the center; a missing
node returns `(0,0)`.  The unreachable both-scales-infinite branch (it
would require `dx = dy = 0`, already handled) also returns the
center. -/
def getEdgeIntersection (ns : List Node) (nodeId : String)
    (targetX targetY : ℚ) : AnchorPoint :=
  match lookupNode ns nodeId with
  | none => ⟨0, 0, AnchorPosition.center⟩
  | some node =>
    let abs := getNodeAbsolutePosition ns nodeId
    let w := node.geometry.w
    let h := node.geometry.h
    let cx := abs.1 + w / 2
    let cy := abs.2 + h / 2
    let dx := targetX - cx
    let dy := targetY - cy
    if dx = 0 ∧ dy = 0 then
      ⟨cx, cy, AnchorPosition.center⟩
    else
      let scaleX := infDiv (w / 2) dx
      let scaleY := infDiv (h / 2) dy
      match infMin scaleX scaleY with
      | none => ⟨cx, cy, AnchorPosition.center⟩
      | some scale =>
        let ix := cx + dx * scale
        let iy := cy + dy * scale
        let position :=
          if infLt scaleX scaleY then
            if dx > 0 then AnchorPosition.east else AnchorPosition.west
          else if infLt scaleY scaleX then
            if dy > 0 then AnchorPosition.south else AnchorPosition.north
          else
            if dx > 0 ∧ dy > 0 then AnchorPosition.southEast
            else if dx > 0 ∧ dy < 0 then AnchorPosition.northEast
            else if dx < 0 ∧ dy > 0 then AnchorPosition.southWest
            else AnchorPosition.northWest
        ⟨ix, iy, position⟩

/-- `calculateEdgeIntersection(nodeId, targetX, targetY, nodes)`
(`useAnchorable.ts`, lines 231–262): the standalone helper computing the
same intersection point without the side classification. -/
def calculateEdgeIntersection (nodeId : String) (targetX targetY : ℚ)
    (ns : List Node) : ℚ × ℚ :=
  match lookupNode ns nodeId with
  | none => (0, 0)
  | some node =>
    let abs := getNodeAbsolutePosition ns nodeId
    let w := node.geometry.w
    let h := node.geometry.h
    let cx := abs.1 + w / 2
    let cy := abs.2 + h / 2
    let dx := targetX - cx
    let dy := targetY - cy
    if dx = 0 ∧ dy = 0 then
      (cx, cy)
    else
      match infMin (infDiv (w / 2) dx) (infDiv (h / 2) dy) with
      | none => (cx, cy)
      | some scale => (cx + dx * scale, cy + dy * scale)

/-! ## History engine (`src/composables/traits/useUndoable.ts`)

Restoration (`restoreSnapshot`, lines 73–97) clears the store and
replays `createNode` for every snapshot node and `createEdge` for every
snapshot edge, drawing a fresh `nanoid` for each created record (the
`fresh` function below supplies the ids drawn, in order).  The closing
`loadFromDB()` reloads the store from IndexedDB, which the store actions
keep in lock-step with the in-memory collections, so it is the
identity on the state the replay produced. -/

/-- The node-recreation loop of `restoreSnapshot`: replays
`createNode(nodeData, node.parentId)` for each snapshot node, drawing
fresh ids `fresh k, fresh (k+1), …`. -/
def recreateNodes (fresh : Nat → String) : Nat → GraphState → List Node → GraphState
  | _, st, [] => st
  | k, st, n :: rest =>
    recreateNodes fresh (k + 1) (createNode st (fresh k) n.type n.geometry n.parentId) rest

/-- The edge-recreation loop of `restoreSnapshot`: replays
`createEdge(edge.sourceId, edge.targetId, edge.routing)` for each
snapshot edge. -/
def recreateEdges (fresh : Nat → String) : Nat → GraphState → List Edge → GraphState
  | _, st, [] => st
  | k, st, e :: rest =>
    recreateEdges fresh (k + 1) (createEdge st (fresh k) e.sourceId e.targetId e.routing).2 rest

/-- `restoreSnapshot(snap)` (`useUndoable.ts`, lines 73–97): clear-all,
then recreate every node and edge of the snapshot. -/
def restoreSnapshot (st0 : GraphState) (snap : GraphState)
    (fresh : Nat → String) : GraphState :=
  let st1 := recreateNodes fresh 0 (clearAll st0) snap.nodes
  recreateEdges fresh snap.nodes.length st1 snap.edges

/-! ## Concrete example states

Small stores used to exercise the theorems on explicit inputs: a
3-level chain `A → B → N` (the spec's additivity example), a second
root container `C` to dock into, and example edges. -/

/-- Root container `A` at `(10,10)`, size `200×200`. -/
def exNodeA : Node := ⟨"A", none, "container", ⟨10, 10, 200, 200⟩⟩

/-- Container `B` at `(5,5)` inside `A`, size `100×100`. -/
def exNodeB : Node := ⟨"B", some "A", "container", ⟨5, 5, 100, 100⟩⟩

/-- Shape `N` at `(1,1)` inside `B`. -/
def exNodeN : Node := ⟨"N", some "B", "shape", ⟨1, 1, 20, 20⟩⟩

/-- Root container `C` at `(300,0)`, size `100×100`. -/
def exNodeC : Node := ⟨"C", none, "container", ⟨300, 0, 100, 100⟩⟩

/-- The example store: chain `A → B → N` plus root container `C`. -/
def exSt : GraphState := ⟨[exNodeA, exNodeB, exNodeN, exNodeC], []⟩

/-- An edge from `A` to `B`. -/
def exEdgeAB : Edge := ⟨"e1", "A", "B", "straight"⟩

/-- The example store with the `A → B` edge present. -/
def exStE : GraphState := ⟨[exNodeA, exNodeB, exNodeN, exNodeC], [exEdgeAB]⟩

/-- An unrelated root shape `X`, plus an edge from `N` (inside the
container chain) to `X`, and an edge between `X` and `C`: the cascading
delete example. -/
def exNodeX : Node := ⟨"X", none, "shape", ⟨500, 500, 20, 20⟩⟩

/-- Edge from nested `N` to unrelated `X`. -/
def exEdgeNX : Edge := ⟨"e2", "N", "X", "straight"⟩

/-- Edge between unrelated `X` and `C`. -/
def exEdgeXC : Edge := ⟨"e3", "X", "C", "straight"⟩

/-- Store for the cascading-delete example: the chain, `C`, `X`, and
the two edges. -/
def exStDel : GraphState :=
  ⟨[exNodeA, exNodeB, exNodeN, exNodeC, exNodeX], [exEdgeNX, exEdgeXC]⟩

/-- The deterministic fresh-id supply used to model the `nanoid()` draws
of a restoration replay. -/
def exFresh (k : Nat) : String := "fresh" ++ toString k

/-- The empty store. -/
def emptySt : GraphState := ⟨[], []⟩

/-! ## Basic lemmas about the embedding -/

theorem lookupNode_cons (a : Node) (ns : List Node) (q : String) :
    lookupNode (a :: ns) q = if a.id = q then some a else lookupNode ns q := by
  by_cases h : a.id = q <;> simp [lookupNode, List.find?_cons, h]

/-- The found node's `id` is the looked-up key. -/
theorem lookupNode_id {ns : List Node} {q : String} {n : Node}
    (h : lookupNode ns q = some n) : n.id = q := by
  have := List.find?_some h
  simpa using this

/-- Looking up in a store whose entries were rewritten by an
id-preserving patch on key `pid` returns the patched lookup result. -/
theorem lookupNode_map_patch (ns : List Node) (pid q : String) (g : Node → Node)
    (hg : ∀ n, (g n).id = n.id) :
    lookupNode (ns.map (fun n => if n.id = pid then g n else n)) q =
      (lookupNode ns q).map (fun n => if n.id = pid then g n else n) := by
  induction ns with
  | nil => rfl
  | cons a as ih =>
    by_cases hq : a.id = q
    · subst hq
      by_cases hp : a.id = pid
      · subst hp
        simp [List.map_cons, lookupNode_cons, hg]
      · simp [List.map_cons, lookupNode_cons, hp]
    · by_cases hp : a.id = pid
      · subst hp
        have hb : ¬ (g a).id = q := by rw [hg]; exact hq
        simp [List.map_cons, lookupNode_cons, hq, hb, ih]
      · simp [List.map_cons, lookupNode_cons, hq, hp, ih]

/-- `mergeNode` never changes the id. -/
theorem mergeNode_id (n : Node) (u : NodeUpdates) : (mergeNode n u).id = n.id := rfl

/-- Membership in the ancestor-id walk is monotone in the fuel. -/
theorem ancestorIds_mono (ns : List Node) :
    ∀ (f g : Nat) (m : Node) (a : String), f ≤ g →
      a ∈ ancestorIds ns f m → a ∈ ancestorIds ns g m := by
  intro f
  induction f with
  | zero => intro g m a _ h; simp [ancestorIds] at h
  | succ f ih =>
    intro g m a hfg h
    obtain ⟨g', rfl⟩ : ∃ g', g = g' + 1 := ⟨g - 1, by omega⟩
    have hfg' : f ≤ g' := by omega
    cases hp : m.parentId with
    | none => simp [ancestorIds, hp] at h
    | some pid =>
      simp only [ancestorIds, hp] at h ⊢
      cases hl : lookupNode ns pid with
      | none => simpa [hl] using (by simpa [hl] using h)
      | some p =>
        simp only [hl, List.mem_cons] at h ⊢
        rcases h with h | h
        · exact Or.inl h
        · exact Or.inr (ih g' p a hfg' h)

/-- Once the upward walk terminates within the fuel, adding fuel does
not change the accumulated absolute position. -/
theorem ancWalk_fuel_stable (ns : List Node) :
    ∀ (f : Nat) (m : Node), rootedWithin ns (f + 1) m = true →
      ∀ g, f ≤ g → ancWalk ns g m = ancWalk ns f m := by
  intro f
  induction f with
  | zero =>
    intro m hr g _
    cases g with
    | zero => rfl
    | succ g' =>
      cases hp : m.parentId with
      | none => simp [ancWalk, hp]
      | some pid =>
        cases hl : lookupNode ns pid with
        | none => simp [ancWalk, hp, hl]
        | some p => simp [rootedWithin, hp, hl] at hr
  | succ f ih =>
    intro m hr g hfg
    obtain ⟨g', rfl⟩ : ∃ g', g = g' + 1 := ⟨g - 1, by omega⟩
    cases hp : m.parentId with
    | none => simp [ancWalk, hp]
    | some pid =>
      cases hl : lookupNode ns pid with
      | none => simp [ancWalk, hp, hl]
      | some p =>
        have hr' : rootedWithin ns (f + 1) p = true := by
          simpa [rootedWithin, hp, hl] using hr
        simp only [ancWalk, hp, hl]
        rw [ih p hr' g' (by omega)]

/-- Rewriting the store by an id-preserving patch on a key the upward
walk never visits does not change the accumulated absolute position. -/
theorem ancWalk_map_patch (ns : List Node) (pid : String) (g : Node → Node)
    (hg : ∀ n, (g n).id = n.id) :
    ∀ (f : Nat) (m : Node), pid ∉ ancestorIds ns f m →
      ancWalk (ns.map (fun n => if n.id = pid then g n else n)) f m = ancWalk ns f m := by
  intro f
  induction f with
  | zero => intro m _; rfl
  | succ f ih =>
    intro m hmem
    cases hp : m.parentId with
    | none => simp [ancWalk, hp]
    | some q =>
      have hqne : q ≠ pid := by
        intro hqeq
        exact hmem (by simp [ancestorIds, hp, hqeq])
      have hlook : lookupNode (ns.map (fun n => if n.id = pid then g n else n)) q =
          (lookupNode ns q).map (fun n => if n.id = pid then g n else n) :=
        lookupNode_map_patch ns pid q g hg
      cases hl : lookupNode ns q with
      | none => simp [ancWalk, hp, hlook, hl]
      | some p =>
        have hpid : p.id = q := lookupNode_id hl
        have hpatch : (if p.id = pid then g p else p) = p := by
          simp [hpid, hqne]
        have hmem' : pid ∉ ancestorIds ns f p := by
          intro hin
          exact hmem (by simp [ancestorIds, hp, hl, List.mem_cons]; exact Or.inr hin)
        simp only [ancWalk, hp, hlook, hl, Option.map_some', hpatch]
        rw [ih p hmem']

/-- Reparenting a node under a new parent `c` (by an `updateNode`-style
rewrite that sets `parentId := some c` and replaces the geometry by
`geom`) makes its absolute position `geom.(x,y)` plus the new parent's
absolute position, provided the dragged node is not on `c`'s ancestor
chain and that chain terminates. -/
theorem getAbs_after_reparent (ns : List Node) (did c : String) (n cn : Node)
    (geom : Geometry)
    (h1 : lookupNode ns did = some n)
    (hc : lookupNode ns c = some cn)
    (hcne : c ≠ did)
    (hnotin : did ∉ ancestorIds ns ns.length cn)
    (hroot : rootedWithin ns ns.length cn = true) :
    getNodeAbsolutePosition
      (ns.map (fun m => if m.id = did then mergeNode m ⟨some (some c), some geom⟩ else m)) did =
    (geom.x + (getNodeAbsolutePosition ns c).1,
     geom.y + (getNodeAbsolutePosition ns c).2) := by
  obtain ⟨L, hL⟩ : ∃ L, ns.length = L + 1 := by
    cases ns with
    | nil => simp [lookupNode] at h1
    | cons a as => exact ⟨as.length, rfl⟩
  set u : NodeUpdates := ⟨some (some c), some geom⟩ with hu
  set patch : Node → Node := fun m => if m.id = did then mergeNode m u else m with hpatch
  have hg : ∀ m, (mergeNode m u).id = m.id := fun m => mergeNode_id m u
  have hnid : n.id = did := lookupNode_id h1
  have hcid : cn.id = c := lookupNode_id hc
  have hlen : (ns.map patch).length = ns.length := List.length_map ns patch
  have hlook_did : lookupNode (ns.map patch) did = some (mergeNode n u) := by
    rw [hpatch, lookupNode_map_patch ns did did (fun m => mergeNode m u) hg, h1]
    simp [hnid]
  have hlook_c : lookupNode (ns.map patch) c = some cn := by
    rw [hpatch, lookupNode_map_patch ns did c (fun m => mergeNode m u) hg, hc]
    simp [hcid, hcne]
  have hparent : (mergeNode n u).parentId = some c := rfl
  have hgeom : (mergeNode n u).geometry = geom := rfl
  have hnotin' : did ∉ ancestorIds ns L cn := fun hmem =>
    hnotin (ancestorIds_mono ns L ns.length cn did (by omega) hmem)
  have hwalk_patch : ancWalk (ns.map patch) L cn = ancWalk ns L cn := by
    rw [hpatch]
    exact ancWalk_map_patch ns did (fun m => mergeNode m u) hg L cn hnotin'
  have hroot' : rootedWithin ns (L + 1) cn = true := by rw [← hL]; exact hroot
  have hwalk_fuel : ancWalk ns (L + 1) cn = ancWalk ns L cn :=
    ancWalk_fuel_stable ns L cn hroot' (L + 1) (by omega)
  have habsC : getNodeAbsolutePosition ns c = ancWalk ns (L + 1) cn := by
    rw [getNodeAbsolutePosition, hc, hL]
  rw [getNodeAbsolutePosition, hlook_did, hlen, hL]
  simp only [ancWalk, hparent, hlook_c, hgeom]
  rw [hwalk_patch, ← hwalk_fuel, ← habsC]

/-- Insertion keeps exactly the old elements plus the inserted one. -/
theorem mem_insertByDepthDesc (x p : Node × Nat) (l : List (Node × Nat)) :
    p ∈ insertByDepthDesc x l ↔ p = x ∨ p ∈ l := by
  induction l with
  | nil => simp [insertByDepthDesc]
  | cons y ys ih =>
    by_cases h : x.2 ≥ y.2
    · simp [insertByDepthDesc, h, List.mem_cons]
    · simp [insertByDepthDesc, h, List.mem_cons, ih]
      tauto

/-- Sorting by depth keeps exactly the original elements. -/
theorem mem_sortByDepthDesc (p : Node × Nat) (l : List (Node × Nat)) :
    p ∈ sortByDepthDesc l ↔ p ∈ l := by
  induction l with
  | nil => simp [sortByDepthDesc]
  | cons x xs ih =>
    simp [sortByDepthDesc, mem_insertByDepthDesc, ih, List.mem_cons]

/-- The descendant test succeeds exactly when the candidate ancestor id
occurs on the upward walk, at every fuel. -/
theorem isDescAux_iff_mem (ns : List Node) :
    ∀ (f : Nat) (m : Node) (a : String),
      isDescAux ns f m a = true ↔ a ∈ ancestorIds ns f m := by
  intro f
  induction f with
  | zero => intro m a; simp [isDescAux, ancestorIds]
  | succ f ih =>
    intro m a
    cases hp : m.parentId with
    | none => simp [isDescAux, ancestorIds, hp]
    | some pid =>
      by_cases hpa : pid = a
      · simp [isDescAux, ancestorIds, hp, hpa]
      · cases hl : lookupNode ns pid with
        | none => simp [isDescAux, ancestorIds, hp, hpa, hl, Ne.symm hpa]
        | some p => simp [isDescAux, ancestorIds, hp, hpa, hl, ih p a, Ne.symm hpa]

/-- Whatever the candidate enumeration order, a hit returned by the
`findContainerAtPoint` loop is an element of the candidate list that
passed the descendant-exclusion test. -/
theorem firstContainerHit_spec (ns : List Node) (x y : ℚ) (N : String) :
    ∀ (l : List (Node × Nat)) (r : String),
      firstContainerHit ns x y (some N) l = some r →
      ∃ p ∈ l, p.1.id = r ∧ isDescendantOf ns r N = false := by
  intro l
  induction l with
  | nil => intro r h; simp [firstContainerHit] at h
  | cons q qs ih =>
    intro r h
    obtain ⟨node, d⟩ := q
    rw [firstContainerHit] at h
    cases hdesc : isDescendantOf ns node.id N with
    | true =>
      simp only [hdesc, eq_self_iff_true, if_true] at h
      obtain ⟨p, hp, hpr⟩ := ih r h
      exact ⟨p, List.mem_cons_of_mem _ hp, hpr⟩
    | false =>
      simp only [hdesc, Bool.false_eq_true, if_false] at h
      cases hins : isPointInsideNode ns node.id x y with
      | true =>
        simp only [hins, eq_self_iff_true, if_true, Option.some.injEq] at h
        exact ⟨(node, d), List.mem_cons_self _ _, by rw [← h], by rw [← h]; exact hdesc⟩
      | false =>
        simp only [hins, Bool.false_eq_true, if_false] at h
        obtain ⟨p, hp, hpr⟩ := ih r h
        exact ⟨p, List.mem_cons_of_mem _ hp, hpr⟩

/-- The accumulated walk equals the node's own offset plus the sum of
the resolved ancestors' offsets, at every fuel. -/
theorem ancWalk_eq_sum (ns : List Node) :
    ∀ (f : Nat) (m : Node),
      ancWalk ns f m =
        (m.geometry.x + ((ancestorNodes ns f m).map (fun a => a.geometry.x)).sum,
         m.geometry.y + ((ancestorNodes ns f m).map (fun a => a.geometry.y)).sum) := by
  intro f
  induction f with
  | zero => intro m; simp [ancWalk, ancestorNodes]
  | succ f ih =>
    intro m
    cases hp : m.parentId with
    | none => simp [ancWalk, ancestorNodes, hp]
    | some pid =>
      cases hl : lookupNode ns pid with
      | none => simp [ancWalk, ancestorNodes, hp, hl]
      | some p =>
        simp [ancWalk, ancestorNodes, hp, hl, ih p]

/-- Iterated record deletion of a list of node ids equals one filter
pass keeping the nodes whose id is not listed. -/
theorem eraseNodes_eq_filter :
    ∀ (ids : List String) (ns : List Node),
      eraseNodes ns ids = ns.filter (fun n => !(ids.contains n.id)) := by
  intro ids
  induction ids with
  | nil => intro ns; simp [eraseNodes]
  | cons i is ih =>
    intro ns
    rw [eraseNodes, ih, List.filter_filter]
    apply List.filter_congr
    intro n _
    simp [List.contains_cons, Bool.not_or, decide_not, Bool.and_comm]

/-- Iterated record deletion of a list of edge ids equals one filter
pass keeping the edges whose id is not listed. -/
theorem eraseEdges_eq_filter :
    ∀ (ids : List String) (es : List Edge),
      eraseEdges es ids = es.filter (fun e => !(ids.contains e.id)) := by
  intro ids
  induction ids with
  | nil => intro es; simp [eraseEdges]
  | cons i is ih =>
    intro es
    rw [eraseEdges, ih, List.filter_filter]
    apply List.filter_congr
    intro e _
    simp [List.contains_cons, Bool.not_or, decide_not, Bool.and_comm]

/-- With edge ids unique (they are record keys in the source), deleting
the ids of the edges satisfying `φ` keeps exactly the edges not
satisfying `φ`. -/
theorem eraseEdges_by_filtered_ids (es : List Edge) (φ : Edge → Bool)
    (hnodup : (es.map (fun e => e.id)).Nodup) :
    eraseEdges es ((es.filter φ).map (fun e => e.id)) =
      es.filter (fun e => !(φ e)) := by
  rw [eraseEdges_eq_filter]
  apply List.filter_congr
  intro e he
  have hinj := List.inj_on_of_nodup_map hnodup
  have hiff : e.id ∈ (es.filter φ).map (fun x => x.id) ↔ φ e = true := by
    constructor
    · intro hmem
      obtain ⟨e', he', heq⟩ := List.mem_map.mp hmem
      obtain ⟨he'mem, hφ'⟩ := List.mem_filter.mp he'
      rwa [hinj he'mem he heq] at hφ'
    · intro hφ
      exact List.mem_map_of_mem _ (List.mem_filter.mpr ⟨he, hφ⟩)
  cases hφ : φ e with
  | true =>
    have hmem := hiff.mpr hφ
    simp [hmem]
  | false =>
    have hn : e.id ∉ (es.filter φ).map (fun x => x.id) := fun h => by
      rw [hiff.mp h] at hφ; cases hφ
    simp [hn]

/-! ## Claim theorems -/

/-- **C1.** Docking preserves absolute position.  Part (i): for a node
present in the store and a candidate parent that is itself present, is
not the dragged node, does not have the dragged node on its ancestor
chain (the situation `findContainerAtPoint` guarantees), and has a
terminating ancestor chain, `commitDocking` leaves the dragged node's
absolute position unchanged, and — when the candidate differs from the
current parent — rewrites its `parentId` to the candidate.  Part (ii):
docking into `B` and then back into `A` under the same conditions
restores the absolute position exactly (so in particular within
floating-point tolerance).  Part (iii): `commitDocking` with a candidate
equal to the current parent returns the store unchanged. -/
theorem C1_commitDocking_preserves_absolute_position :
    (∀ (st : GraphState) (draggedId c : String) (n cn : Node),
      lookupNode st.nodes draggedId = some n →
      lookupNode st.nodes c = some cn →
      c ≠ draggedId →
      draggedId ∉ ancestorIds st.nodes st.nodes.length cn →
      rootedWithin st.nodes st.nodes.length cn = true →
      getNodeAbsolutePosition (commitDocking st draggedId (some c)).nodes draggedId =
        getNodeAbsolutePosition st.nodes draggedId ∧
      (some c ≠ n.parentId →
        (lookupNode (commitDocking st draggedId (some c)).nodes draggedId).map
            Node.parentId = some (some c))) ∧
    (∀ (st : GraphState) (draggedId a b : String) (n cn n' cn' : Node),
      lookupNode st.nodes draggedId = some n →
      lookupNode st.nodes b = some cn →
      b ≠ draggedId →
      draggedId ∉ ancestorIds st.nodes st.nodes.length cn →
      rootedWithin st.nodes st.nodes.length cn = true →
      lookupNode (commitDocking st draggedId (some b)).nodes draggedId = some n' →
      lookupNode (commitDocking st draggedId (some b)).nodes a = some cn' →
      a ≠ draggedId →
      draggedId ∉ ancestorIds (commitDocking st draggedId (some b)).nodes
        (commitDocking st draggedId (some b)).nodes.length cn' →
      rootedWithin (commitDocking st draggedId (some b)).nodes
        (commitDocking st draggedId (some b)).nodes.length cn' = true →
      getNodeAbsolutePosition
        (commitDocking (commitDocking st draggedId (some b)) draggedId (some a)).nodes
        draggedId = getNodeAbsolutePosition st.nodes draggedId) ∧
    (∀ (st : GraphState) (nodeId : String) (n : Node) (c : String),
      lookupNode st.nodes nodeId = some n →
      n.parentId = some c →
      commitDocking st nodeId (some c) = st) := by
  have key : ∀ (st : GraphState) (draggedId c : String) (n cn : Node),
      lookupNode st.nodes draggedId = some n →
      lookupNode st.nodes c = some cn →
      c ≠ draggedId →
      draggedId ∉ ancestorIds st.nodes st.nodes.length cn →
      rootedWithin st.nodes st.nodes.length cn = true →
      getNodeAbsolutePosition (commitDocking st draggedId (some c)).nodes draggedId =
        getNodeAbsolutePosition st.nodes draggedId ∧
      (some c ≠ n.parentId →
        (lookupNode (commitDocking st draggedId (some c)).nodes draggedId).map
            Node.parentId = some (some c)) := by
    intro st draggedId c n cn h1 hc hcne hnotin hroot
    by_cases hne : some c = n.parentId
    · have hcd : commitDocking st draggedId (some c) = st := by
        simp only [commitDocking, h1]
        rw [if_neg (not_not_intro hne)]
      constructor
      · rw [hcd]
      · intro hcontra; exact absurd hne hcontra
    · have hnodes : (commitDocking st draggedId (some c)).nodes =
          st.nodes.map (fun m =>
            if m.id = draggedId then
              mergeNode m ⟨some (some c),
                some { n.geometry with
                  x := (convertCoordinates st.nodes draggedId n.parentId (some c)).1,
                  y := (convertCoordinates st.nodes draggedId n.parentId (some c)).2 }⟩
            else m) := by
        simp only [commitDocking, h1]
        rw [if_pos hne]
        simp only [updateNode, h1]
      have hconv : convertCoordinates st.nodes draggedId n.parentId (some c) =
          ((getNodeAbsolutePosition st.nodes draggedId).1 -
            (getNodeAbsolutePosition st.nodes c).1,
           (getNodeAbsolutePosition st.nodes draggedId).2 -
            (getNodeAbsolutePosition st.nodes c).2) := by
        simp only [convertCoordinates, h1]
      have habs := getAbs_after_reparent st.nodes draggedId c n cn
        { n.geometry with
          x := (convertCoordinates st.nodes draggedId n.parentId (some c)).1,
          y := (convertCoordinates st.nodes draggedId n.parentId (some c)).2 }
        h1 hc hcne hnotin hroot
      constructor
      · rw [hnodes, habs]
        simp only [hconv]
        rw [sub_add_cancel, sub_add_cancel]
      · intro _
        rw [hnodes]
        have hg : ∀ m, (mergeNode m ⟨some (some c),
            some { n.geometry with
              x := (convertCoordinates st.nodes draggedId n.parentId (some c)).1,
              y := (convertCoordinates st.nodes draggedId n.parentId (some c)).2 }⟩).id
            = m.id := fun m => mergeNode_id m _
        rw [lookupNode_map_patch st.nodes draggedId draggedId _ hg, h1]
        simp [lookupNode_id h1, mergeNode]
  refine ⟨fun st d c n cn h1 hc hcne hni hr => key st d c n cn h1 hc hcne hni hr,
          fun st d a b n cn n' cn' h1 hc hbne hni hr h1' hc' hane hni' hr' => ?_,
          fun st nodeId n c h1 hp => ?_⟩
  · have s1 := (key st d b n cn h1 hc hbne hni hr).1
    have s2 := (key (commitDocking st d (some b)) d a n' cn' h1' hc' hane hni' hr').1
    rw [s2, s1]
  · simp only [commitDocking, h1]
    rw [if_neg (not_not_intro hp.symm)]

/-- Witness for C1: in the concrete store, docking `N` (inside `B`)
into the root container `C` keeps its absolute position `(16,16)` and
sets its parent to `C`; docking back into `B` restores the position;
and docking into the current parent `B` is the identity. -/
theorem C1_commitDocking_witness :
    getNodeAbsolutePosition (commitDocking exSt "N" (some "C")).nodes "N" =
      getNodeAbsolutePosition exSt.nodes "N" ∧
    (lookupNode (commitDocking exSt "N" (some "C")).nodes "N").map Node.parentId =
      some (some "C") ∧
    getNodeAbsolutePosition
      (commitDocking (commitDocking exSt "N" (some "C")) "N" (some "B")).nodes "N" =
      getNodeAbsolutePosition exSt.nodes "N" ∧
    commitDocking exSt "N" (some "B") = exSt := by
  obtain ⟨p1, p2, p3⟩ := C1_commitDocking_preserves_absolute_position
  have h1 := p1 exSt "N" "C" exNodeN exNodeC (by decide) (by decide) (by decide)
    (by decide) (by decide)
  have hlook' : lookupNode (commitDocking exSt "N" (some "C")).nodes "N" =
      some ⟨"N", some "C", "shape", ⟨-284, 16, 20, 20⟩⟩ := by
    simp [commitDocking, updateNode, convertCoordinates, getNodeAbsolutePosition,
      exSt, exNodeA, exNodeB, exNodeN, exNodeC, lookupNode, List.find?, ancWalk, mergeNode]
    norm_num
  have hlookB' : lookupNode (commitDocking exSt "N" (some "C")).nodes "B" = some exNodeB := by
    simp [commitDocking, updateNode, convertCoordinates, getNodeAbsolutePosition,
      exSt, exNodeA, exNodeB, exNodeN, exNodeC, lookupNode, List.find?, ancWalk, mergeNode]
  have hnodes' : (commitDocking exSt "N" (some "C")).nodes =
      [exNodeA, exNodeB, ⟨"N", some "C", "shape", ⟨-284, 16, 20, 20⟩⟩, exNodeC] := by
    simp [commitDocking, updateNode, convertCoordinates, getNodeAbsolutePosition,
      exSt, exNodeA, exNodeB, exNodeN, exNodeC, lookupNode, List.find?, ancWalk, mergeNode]
    norm_num
  have h2 := p2 exSt "N" "B" "C" exNodeN exNodeC
    ⟨"N", some "C", "shape", ⟨-284, 16, 20, 20⟩⟩ exNodeB
    (by decide) (by decide) (by decide) (by decide) (by decide)
    hlook' hlookB' (by decide)
    (by rw [hnodes']; decide) (by rw [hnodes']; decide)
  exact ⟨h1.1, h1.2 (by decide), h2, p3 exSt "N" exNodeN "B" (by decide) rfl⟩

/-- **C2.** Cycle freedom of drop-target resolution: a container id
returned by `findContainerAtPoint(absX, absY, N)` is never `N` itself,
never passes the code's descendant test for `N`, and — spelling the
descendant relation out — `N` does not occur on the upward `parentId`
walk from the returned node. -/
theorem C2_findContainerAtPoint_cycle_freedom :
    ∀ (ns : List Node) (absX absY : ℚ) (N r : String),
      findContainerAtPoint ns absX absY (some N) = some r →
      r ≠ N ∧ isDescendantOf ns r N = false ∧
      ∀ rn, lookupNode ns r = some rn → N ∉ ancestorIds ns ns.length rn := by
  intro ns x y N r h
  rw [findContainerAtPoint] at h
  obtain ⟨⟨node, d⟩, hmem, hid, hdesc⟩ := firstContainerHit_spec ns x y N _ r h
  rw [mem_sortByDepthDesc] at hmem
  obtain ⟨node', hmem', heq⟩ := List.mem_map.mp hmem
  have hnode : node' = node := congrArg Prod.fst heq
  subst hnode
  have hfilt := (List.mem_filter.mp hmem').2
  simp only [Bool.and_eq_true, decide_eq_true_eq] at hfilt
  refine ⟨by rw [← hid]; exact hfilt.2, hdesc, ?_⟩
  intro rn hrn hmemanc
  have htrue : isDescendantOf ns r N = true := by
    simp only [isDescendantOf, hrn]
    exact (isDescAux_iff_mem ns ns.length rn N).mpr hmemanc
  rw [htrue] at hdesc
  exact Bool.true_eq_false.mp hdesc

/-- Witness for C2: in the example store the point `(20,20)` with
exclude node `N` resolves to container `B`, which is not `N`, fails the
descendant test, and has only `A` above it. -/
theorem C2_cycle_freedom_witness :
    ("B" : String) ≠ "N" ∧ isDescendantOf exSt.nodes "B" "N" = false ∧
      "N" ∉ ancestorIds exSt.nodes exSt.nodes.length exNodeB := by
  have hsort : sortByDepthDesc
      ((exSt.nodes.filter (fun n =>
        n.type = "container" &&
        (match (some "N" : Option String) with
         | some e => n.id ≠ e
         | none => true))).map (fun node => (node, getNodeDepth exSt.nodes node.id))) =
      [(exNodeB, 1), (exNodeA, 0), (exNodeC, 0)] := by decide
  have hd : isDescendantOf exSt.nodes "B" "N" = false := by decide
  have hi : isPointInsideNode exSt.nodes "B" 20 20 = true := by
    simp [isPointInsideNode, getNodeAbsolutePosition, lookupNode, List.find?, ancWalk,
      exSt, exNodeA, exNodeB, exNodeN, exNodeC]
    norm_num
  have hfind : findContainerAtPoint exSt.nodes 20 20 (some "N") = some "B" := by
    rw [findContainerAtPoint, hsort, firstContainerHit]
    simp only [exNodeB, hd, Bool.false_eq_true, if_false, hi, eq_self_iff_true, if_true]
  have h := C2_findContainerAtPoint_cycle_freedom exSt.nodes 20 20 "N" "B" hfind
  exact ⟨h.1, h.2.1, h.2.2 exNodeB (by decide)⟩

/-- **C3.** Evaluation of the restoration replay at a concrete failing
input: restoring the snapshot `{A, B(parent A), N(parent B), C; edge
A→B}` over the history engine's replay (`clearAll`, then `createNode`
per snapshot node and `createEdge` per snapshot edge, each drawing a
fresh `nanoid`) yields a store with **no edges** (the stored
`sourceId`/`targetId` reference the snapshot's old ids, which the
freshly-keyed nodes no longer carry, so every `createEdge` returns
`null`) and with node keys and parent references different from the
snapshot's.  The restored store is therefore not equal to the target
snapshot, contradicting the claim. -/
theorem C3_restoreSnapshot_diverges_from_snapshot :
    (restoreSnapshot emptySt exStE exFresh).edges = [] ∧
    exStE.edges = [exEdgeAB] ∧
    (restoreSnapshot emptySt exStE exFresh).nodes ≠ exStE.nodes ∧
    (lookupNode (restoreSnapshot emptySt exStE exFresh).nodes "fresh1").map
        Node.parentId = some (some "A") ∧
    lookupNode (restoreSnapshot emptySt exStE exFresh).nodes "A" = none := by
  decide

/-- **C5, counterexample.** `commitDocking` with a `null` candidate is
an early return that does **not** reparent: in the example store the
node `N` (under `B`) still has `parentId = B` afterwards — while
`undockFromParent` sets `parentId = null` — refuting the claim that
committing with no qualifying container reparents the node to root
level exactly as `undockFromParent` does. -/
theorem C5_null_candidate_counterexample :
    commitDocking exSt "N" none = exSt ∧
    (lookupNode (commitDocking exSt "N" none).nodes "N").map Node.parentId =
      some (some "B") ∧
    (lookupNode (undockFromParent exSt "N").nodes "N").map Node.parentId =
      some none := by
  refine ⟨rfl, by decide, ?_⟩
  have : lookupNode (undockFromParent exSt "N").nodes "N" =
      some ⟨"N", none, "shape", ⟨16, 16, 20, 20⟩⟩ := by
    simp [undockFromParent, updateNode, convertCoordinates, getNodeAbsolutePosition,
      lookupNode, List.find?, ancWalk, mergeNode, exSt, exNodeA, exNodeB, exNodeN, exNodeC]
    norm_num
  rw [this]
  rfl

/-- **C5, amended.** `commitDocking` with a `null` candidate leaves the
store unchanged (the node keeps its parent); reparenting to root level
is performed only by `undockFromParent`, which for a node with a
non-null parent sets `parentId` to `null`, rewrites `geometry.(x,y)` to
the node's absolute position, and thereby preserves that absolute
position. -/
theorem C5_commitDocking_null_vs_undock :
    (∀ (st : GraphState) (nodeId : String), commitDocking st nodeId none = st) ∧
    (∀ (st : GraphState) (nodeId : String) (n : Node) (p : String),
      lookupNode st.nodes nodeId = some n →
      n.parentId = some p →
      lookupNode (undockFromParent st nodeId).nodes nodeId =
        some { n with
               parentId := none
               geometry := { n.geometry with
                 x := (getNodeAbsolutePosition st.nodes nodeId).1,
                 y := (getNodeAbsolutePosition st.nodes nodeId).2 } } ∧
      getNodeAbsolutePosition (undockFromParent st nodeId).nodes nodeId =
        getNodeAbsolutePosition st.nodes nodeId) := by
  constructor
  · intro st nodeId; rfl
  · intro st nodeId n p h1 hp
    have hnc : convertCoordinates st.nodes nodeId (some p) none =
        getNodeAbsolutePosition st.nodes nodeId := by
      simp only [convertCoordinates, h1]
    have hnodes : (undockFromParent st nodeId).nodes =
        st.nodes.map (fun m => if m.id = nodeId then
          mergeNode m ⟨some none, some { n.geometry with
            x := (getNodeAbsolutePosition st.nodes nodeId).1,
            y := (getNodeAbsolutePosition st.nodes nodeId).2 }⟩ else m) := by
      simp only [undockFromParent, h1, hp, updateNode, hnc]
    have hg : ∀ m, (mergeNode m ⟨some none, some { n.geometry with
        x := (getNodeAbsolutePosition st.nodes nodeId).1,
        y := (getNodeAbsolutePosition st.nodes nodeId).2 }⟩).id = m.id :=
      fun m => mergeNode_id m _
    have hlook : lookupNode (undockFromParent st nodeId).nodes nodeId =
        some (mergeNode n ⟨some none, some { n.geometry with
          x := (getNodeAbsolutePosition st.nodes nodeId).1,
          y := (getNodeAbsolutePosition st.nodes nodeId).2 }⟩) := by
      rw [hnodes, lookupNode_map_patch st.nodes nodeId nodeId _ hg, h1]
      simp [lookupNode_id h1]
    constructor
    · rw [hlook]; rfl
    · rw [getNodeAbsolutePosition, hlook]
      cases hf : (undockFromParent st nodeId).nodes.length with
      | zero => rfl
      | succ f => rfl

/-- Witness for the amended C5: in the example store, `commitDocking`
of `N` with a `null` candidate is the identity, while
`undockFromParent` moves `N` to root keeping its absolute position. -/
theorem C5_null_vs_undock_witness :
    commitDocking exSt "N" none = exSt ∧
    lookupNode (undockFromParent exSt "N").nodes "N" =
      some { exNodeN with
             parentId := none
             geometry := { exNodeN.geometry with
               x := (getNodeAbsolutePosition exSt.nodes "N").1,
               y := (getNodeAbsolutePosition exSt.nodes "N").2 } } ∧
    getNodeAbsolutePosition (undockFromParent exSt "N").nodes "N" =
      getNodeAbsolutePosition exSt.nodes "N" := by
  obtain ⟨p1, p2⟩ := C5_commitDocking_null_vs_undock
  have h := p2 exSt "N" exNodeN "B" (by decide) rfl
  exact ⟨p1 exSt "N", h.1, h.2⟩

/-- **C4, counterexample.** The store-level `createEdge` performs the
node-existence and duplicate checks but never compares `sourceId` with
`targetId`: with node `A` present and no prior `{A,A}` edge,
`createEdge(A,A)` creates and returns an edge whose source and target
are the same node — refuting the claim that it never adds one. -/
theorem C4_self_edge_counterexample :
    (createEdge exSt "e9" "A" "A" "straight").1 =
      some (Edge.mk "e9" "A" "A" "straight") ∧
    (createEdge exSt "e9" "A" "A" "straight").2.edges =
      [Edge.mk "e9" "A" "A" "straight"] := by
  decide

/-- **C4, amended.** The store's `createEdge` does not itself reject
self-edges: for an existing node `a` with no prior `{a,a}` edge,
`createEdge(a,a)` appends and returns the self-edge (prevention is left
to the caller — the canvas only invokes `createEdge` for distinct
endpoints); a second `createEdge(a,a)` is then rejected by the
duplicate check, returning `null` with the store unchanged. -/
theorem C4_createEdge_self_edge_behavior :
    ∀ (st : GraphState) (fid a r : String) (n : Node),
      lookupNode st.nodes a = some n →
      (¬ ∃ e ∈ st.edges, e.sourceId = a ∧ e.targetId = a) →
      createEdge st fid a a r =
        (some (Edge.mk fid a a r), { st with edges := st.edges ++ [Edge.mk fid a a r] }) ∧
      (∀ f2 r2, createEdge { st with edges := st.edges ++ [Edge.mk fid a a r] } f2 a a r2 =
        (none, { st with edges := st.edges ++ [Edge.mk fid a a r] })) := by
  intro st fid a r n h1 hnodup
  have hlook : ¬ ((lookupNode st.nodes a).isNone || (lookupNode st.nodes a).isNone) = true := by
    simp [h1]
  have hany : (st.edges.any (fun e =>
      (e.sourceId = a && e.targetId = a) || (e.sourceId = a && e.targetId = a))) = false := by
    rw [Bool.eq_false_iff]
    intro hc
    obtain ⟨e, he, hpred⟩ := List.any_eq_true.mp hc
    simp only [Bool.or_self, Bool.and_eq_true, decide_eq_true_eq] at hpred
    exact hnodup ⟨e, he, hpred⟩
  have hanyneg : ¬ (st.edges.any (fun e =>
      (e.sourceId = a && e.targetId = a) || (e.sourceId = a && e.targetId = a))) = true := by
    rw [hany]
    exact Bool.false_ne_true
  constructor
  · rw [createEdge, if_neg hlook, if_neg hanyneg]
  · intro f2 r2
    rw [createEdge]
    have hlook2 : ¬ ((lookupNode st.nodes a).isNone || (lookupNode st.nodes a).isNone) = true := hlook
    rw [if_neg hlook2]
    have hany2 : ((st.edges ++ [Edge.mk fid a a r]).any (fun e =>
        (e.sourceId = a && e.targetId = a) || (e.sourceId = a && e.targetId = a))) = true := by
      rw [List.any_eq_true]
      exact ⟨Edge.mk fid a a r, List.mem_append_right _ (List.mem_singleton_self _), by simp⟩
    rw [if_pos hany2]

/-- Witness for the amended C4: in the example store, `createEdge`
of `A` with itself yields the self-edge store, and repeating the call
returns `null` with that store unchanged. -/
theorem C4_self_edge_witness :
    createEdge exSt "e9" "A" "A" "straight" =
      (some (Edge.mk "e9" "A" "A" "straight"),
       { exSt with edges := [Edge.mk "e9" "A" "A" "straight"] }) ∧
    createEdge { exSt with edges := [Edge.mk "e9" "A" "A" "straight"] } "e10" "A" "A" "curve" =
      (none, { exSt with edges := [Edge.mk "e9" "A" "A" "straight"] }) := by
  have h := C4_createEdge_self_edge_behavior exSt "e9" "A" "straight" exNodeA
    (by decide) (by decide)
  exact ⟨h.1, h.2 "e10" "curve"⟩

/-- **C6.** Cascading delete: `deleteNode(id)` keeps exactly the nodes
whose id is not in the delete set (the node itself plus its descendants
computed by repeated child-lookup on `parentId`), and exactly the edges
touching no deleted node, in both cases preserving every other record
unchanged and in order.  Edge ids are assumed unique, as record keys
are. -/
theorem C6_deleteNode_cascades :
    ∀ (st : GraphState) (id : String),
      (st.edges.map (fun e => e.id)).Nodup →
      (deleteNode st id).nodes =
        st.nodes.filter (fun n => !((deleteSet st.nodes id).contains n.id)) ∧
      (deleteNode st id).edges =
        st.edges.filter (fun e =>
          !((deleteSet st.nodes id).contains e.sourceId ||
            (deleteSet st.nodes id).contains e.targetId)) := by
  intro st id hnodup
  constructor
  · simp only [deleteNode]
    exact eraseNodes_eq_filter _ _
  · simp only [deleteNode]
    exact eraseEdges_by_filtered_ids st.edges _ hnodup

/-- Witness for C6: deleting container `B` from the example store with
nested `N`, unrelated `X` and `C`, edge `N→X` and edge `X→C` removes
`B`, `N` and the `N→X` edge, leaving `A`, `C`, `X` and the `X→C`
edge. -/
theorem C6_deleteNode_witness :
    ((deleteNode exStDel "B").nodes =
      exStDel.nodes.filter (fun n => !((deleteSet exStDel.nodes "B").contains n.id)) ∧
     (deleteNode exStDel "B").edges =
      exStDel.edges.filter (fun e =>
        !((deleteSet exStDel.nodes "B").contains e.sourceId ||
          (deleteSet exStDel.nodes "B").contains e.targetId))) ∧
    (deleteNode exStDel "B").nodes = [exNodeA, exNodeC, exNodeX] ∧
    (deleteNode exStDel "B").edges = [exEdgeXC] := by
  refine ⟨C6_deleteNode_cascades exStDel "B" (by decide), by decide, by decide⟩

/-- **C7.** Absolute-position additivity: for every node present in the
store, `getNodeAbsolutePosition` is the node's own relative `(x,y)` plus
the sum of the `(x,y)` offsets of the ancestors reached by following
`parentId` (the walk stopping at a root or at a dangling parent
reference, as `ancestorNodes` does). -/
theorem C7_absolute_position_additivity :
    ∀ (ns : List Node) (nodeId : String) (n : Node),
      lookupNode ns nodeId = some n →
      getNodeAbsolutePosition ns nodeId =
        (n.geometry.x + ((ancestorNodes ns ns.length n).map (fun a => a.geometry.x)).sum,
         n.geometry.y + ((ancestorNodes ns ns.length n).map (fun a => a.geometry.y)).sum) := by
  intro ns nodeId n h
  simp only [getNodeAbsolutePosition, h]
  exact ancWalk_eq_sum ns ns.length n

/-- Witness for C7: in the 3-level chain `A(10,10) → B(5,5) → N(1,1)`
the absolute position of `N` is `(16,16)`, the spec's worked example. -/
theorem C7_absolute_position_witness :
    getNodeAbsolutePosition exSt.nodes "N" = (16, 16) := by
  have h := C7_absolute_position_additivity exSt.nodes "N" exNodeN (by decide)
  rw [h]
  simp [ancestorNodes, exSt, exNodeA, exNodeB, exNodeN, exNodeC, lookupNode, List.find?]
  norm_num

/-- **C8.** Edge-intersection totality and guarded divisions: with the
node present and writing `c = (cx,cy)` for its absolute center and
`(dx,dy)` for the direction toward the target, (a) a zero direction
returns the center; (b) with both components nonzero the result is
`c + d·min((w/2)/|dx|, (h/2)/|dy|)` — both divisors nonzero; (c) a
purely vertical ray (`dx = 0`) keeps `x = cx` and lands on `cy ± h/2`,
the opposite axis's edge; (d) symmetrically for a purely horizontal
ray; (e) the standalone `calculateEdgeIntersection` helper returns the
same point. -/
theorem C8_edge_intersection_total :
    ∀ (ns : List Node) (nodeId : String) (tx ty : ℚ) (node : Node),
      lookupNode ns nodeId = some node →
      ∀ cx cy dx dy : ℚ,
      cx = (getNodeAbsolutePosition ns nodeId).1 + node.geometry.w / 2 →
      cy = (getNodeAbsolutePosition ns nodeId).2 + node.geometry.h / 2 →
      dx = tx - cx →
      dy = ty - cy →
      ((dx = 0 ∧ dy = 0 →
        getEdgeIntersection ns nodeId tx ty = ⟨cx, cy, AnchorPosition.center⟩) ∧
       (dx ≠ 0 → dy ≠ 0 →
        (getEdgeIntersection ns nodeId tx ty).x =
          cx + dx * min ((node.geometry.w / 2) / |dx|) ((node.geometry.h / 2) / |dy|) ∧
        (getEdgeIntersection ns nodeId tx ty).y =
          cy + dy * min ((node.geometry.w / 2) / |dx|) ((node.geometry.h / 2) / |dy|)) ∧
       (dx = 0 → dy ≠ 0 →
        (getEdgeIntersection ns nodeId tx ty).x = cx ∧
        ((getEdgeIntersection ns nodeId tx ty).y = cy + node.geometry.h / 2 ∨
         (getEdgeIntersection ns nodeId tx ty).y = cy - node.geometry.h / 2)) ∧
       (dy = 0 → dx ≠ 0 →
        (getEdgeIntersection ns nodeId tx ty).y = cy ∧
        ((getEdgeIntersection ns nodeId tx ty).x = cx + node.geometry.w / 2 ∨
         (getEdgeIntersection ns nodeId tx ty).x = cx - node.geometry.w / 2)) ∧
       calculateEdgeIntersection nodeId tx ty ns =
         ((getEdgeIntersection ns nodeId tx ty).x,
          (getEdgeIntersection ns nodeId tx ty).y)) := by
  intro ns nodeId tx ty node h cx cy dx dy hcx hcy hdx hdy
  simp only [getEdgeIntersection, calculateEdgeIntersection, h]
  rw [← hcx, ← hcy, ← hdx, ← hdy]
  by_cases hzero : dx = 0 ∧ dy = 0
  · rw [if_pos hzero]
    refine ⟨fun _ => rfl, fun hx _ => absurd hzero.1 hx,
            fun _ hy => absurd hzero.2 hy, fun _ hx => absurd hzero.1 hx, ?_⟩
    rw [if_pos hzero]
  · rw [if_neg hzero]
    refine ⟨fun hc => absurd hc hzero, ?_, ?_, ?_, ?_⟩
    · intro hx hy
      have hsx : infDiv (node.geometry.w / 2) dx = some ((node.geometry.w / 2) / |dx|) := by
        rw [infDiv, if_pos (abs_pos.mpr hx)]
      have hsy : infDiv (node.geometry.h / 2) dy = some ((node.geometry.h / 2) / |dy|) := by
        rw [infDiv, if_pos (abs_pos.mpr hy)]
      rw [hsx, hsy]
      exact ⟨rfl, rfl⟩
    · intro hx hy
      have hsx : infDiv (node.geometry.w / 2) dx = none := by
        rw [infDiv, if_neg]
        rw [hx]
        simp
      have hsy : infDiv (node.geometry.h / 2) dy = some ((node.geometry.h / 2) / |dy|) := by
        rw [infDiv, if_pos (abs_pos.mpr hy)]
      rw [hsx, hsy]
      simp only [infMin]
      constructor
      · rw [hx]; ring
      · rcases lt_or_gt_of_ne hy with hneg | hpos
        · right
          rw [abs_of_neg hneg]
          field_simp
          ring
        · left
          rw [abs_of_pos hpos]
          field_simp
          ring
    · intro hy hx
      have hsx : infDiv (node.geometry.w / 2) dx = some ((node.geometry.w / 2) / |dx|) := by
        rw [infDiv, if_pos (abs_pos.mpr hx)]
      have hsy : infDiv (node.geometry.h / 2) dy = none := by
        rw [infDiv, if_neg]
        rw [hy]
        simp
      rw [hsx, hsy]
      simp only [infMin]
      constructor
      · rw [hy]; ring
      · rcases lt_or_gt_of_ne hx with hneg | hpos
        · right
          rw [abs_of_neg hneg]
          field_simp
          ring
        · left
          rw [abs_of_pos hpos]
          field_simp
          ring
    · rw [if_neg hzero]
      cases hmin : infMin (infDiv (node.geometry.w / 2) dx) (infDiv (node.geometry.h / 2) dy) with
      | none => rfl
      | some s => rfl

/-- Witness for C8: from the center of container `C` (at `(350,50)`,
size `100×100`) toward the target `(350, 500)` — a purely vertical
ray — the intersection is the south edge midpoint `(350, 100)`, and the
standalone helper agrees. -/
theorem C8_edge_intersection_witness :
    (getEdgeIntersection exSt.nodes "C" 350 500).x = 350 ∧
    ((getEdgeIntersection exSt.nodes "C" 350 500).y = 50 + (100 : ℚ) / 2 ∨
     (getEdgeIntersection exSt.nodes "C" 350 500).y = 50 - (100 : ℚ) / 2) ∧
    calculateEdgeIntersection "C" 350 500 exSt.nodes =
      ((getEdgeIntersection exSt.nodes "C" 350 500).x,
       (getEdgeIntersection exSt.nodes "C" 350 500).y) := by
  have habs : getNodeAbsolutePosition exSt.nodes "C" = (300, 0) := by
    simp [getNodeAbsolutePosition, lookupNode, List.find?, ancWalk,
      exSt, exNodeA, exNodeB, exNodeN, exNodeC]
  have h := C8_edge_intersection_total exSt.nodes "C" 350 500 exNodeC (by decide)
    350 50 0 450
    (by rw [habs]; norm_num [exNodeC]) (by rw [habs]; norm_num [exNodeC])
    (by norm_num) (by norm_num)
  obtain ⟨-, -, h3, -, h5⟩ := h
  have h3' := h3 rfl (by norm_num)
  refine ⟨h3'.1, ?_, h5⟩
  have : (exNodeC.geometry.h : ℚ) = 100 := by norm_num [exNodeC]
  rcases h3'.2 with hcase | hcase
  · left; rw [hcase, this]
  · right; rw [hcase, this]

/-- **C9.** Edge non-duplication: when an edge already links the pair
in either orientation, `createEdge` returns `null` and leaves the store
unchanged; and after a successful `createEdge(A,B)`, the call
`createEdge(B,A)` on the resulting store returns `null` and leaves it
unchanged. -/
theorem C9_createEdge_no_duplicates :
    (∀ (st : GraphState) (freshId s t r : String),
      (∃ e ∈ st.edges,
        (e.sourceId = s ∧ e.targetId = t) ∨ (e.sourceId = t ∧ e.targetId = s)) →
      createEdge st freshId s t r = (none, st)) ∧
    (∀ (st : GraphState) (f1 f2 a b r1 r2 : String) (e : Edge) (st' : GraphState),
      createEdge st f1 a b r1 = (some e, st') →
      createEdge st' f2 b a r2 = (none, st')) := by
  constructor
  · intro st fid s t r hex
    rw [createEdge]
    by_cases h1 : ((lookupNode st.nodes s).isNone || (lookupNode st.nodes t).isNone) = true
    · rw [if_pos h1]
    · rw [if_neg h1]
      have hany : (st.edges.any (fun e =>
          (e.sourceId = s && e.targetId = t) || (e.sourceId = t && e.targetId = s))) = true := by
        rw [List.any_eq_true]
        obtain ⟨e, he, hcase⟩ := hex
        refine ⟨e, he, ?_⟩
        rcases hcase with ⟨ha, hb⟩ | ⟨ha, hb⟩ <;> simp [ha, hb]
      rw [if_pos hany]
  · intro st f1 f2 a b r1 r2 e st' h
    rw [createEdge] at h
    by_cases hex : ((lookupNode st.nodes a).isNone || (lookupNode st.nodes b).isNone) = true
    · rw [if_pos hex] at h
      simp at h
    · rw [if_neg hex] at h
      by_cases hdup : (st.edges.any (fun e =>
          (e.sourceId = a && e.targetId = b) || (e.sourceId = b && e.targetId = a))) = true
      · rw [if_pos hdup] at h
        simp at h
      · rw [if_neg hdup] at h
        have hst' : st' = { st with edges := st.edges ++ [⟨f1, a, b, r1⟩] } := by
          have := congrArg Prod.snd h
          simpa using this.symm
        subst hst'
        rw [createEdge]
        have hexa : ¬ ((lookupNode st.nodes b).isNone || (lookupNode st.nodes a).isNone) = true := by
          simp only [Bool.or_eq_true, not_or] at hex ⊢
          exact ⟨hex.2, hex.1⟩
        rw [if_neg hexa]
        have hany : ((st.edges ++ [Edge.mk f1 a b r1]).any (fun e =>
            (e.sourceId = b && e.targetId = a) || (e.sourceId = a && e.targetId = b))) = true := by
          rw [List.any_eq_true]
          exact ⟨Edge.mk f1 a b r1, List.mem_append_right _ (List.mem_singleton_self _), by simp⟩
        rw [if_pos hany]

/-- Witness for C9: creating the `A → B` edge in the example store
succeeds and yields the store `exStE`; creating `B → A` (or `A → B`)
there returns `null` with the store unchanged. -/
theorem C9_createEdge_witness :
    createEdge exStE "e9" "B" "A" "straight" = (none, exStE) ∧
    createEdge exStE "e9" "A" "B" "straight" = (none, exStE) := by
  have hfirst : createEdge exSt "e1" "A" "B" "straight" = (some exEdgeAB, exStE) := by decide
  refine ⟨C9_createEdge_no_duplicates.2 exSt "e1" "e9" "A" "B" "straight" "straight"
    exEdgeAB exStE hfirst, ?_⟩
  apply C9_createEdge_no_duplicates.1 exStE "e9" "A" "B" "straight"
  exact ⟨exEdgeAB, by decide, Or.inl ⟨by decide, by decide⟩⟩

/-- **C10.** Missing-id sentinels: for an id absent from the node
collection, `getNodeAbsolutePosition` returns the origin,
`convertCoordinates` returns the origin for every source/target frame,
and `isPointInsideNode` returns `false` for every point. -/
theorem C10_missing_id_sentinels :
    ∀ (st : GraphState) (nodeId : String),
      lookupNode st.nodes nodeId = none →
      getNodeAbsolutePosition st.nodes nodeId = (0, 0) ∧
      (∀ fromParentId toParentId,
        convertCoordinates st.nodes nodeId fromParentId toParentId = (0, 0)) ∧
      (∀ x y : ℚ, isPointInsideNode st.nodes nodeId x y = false) := by
  intro st nodeId h
  refine ⟨?_, fun fp tp => ?_, fun x y => ?_⟩
  · simp only [getNodeAbsolutePosition, h]
  · simp only [convertCoordinates, h]
  · simp only [isPointInsideNode, h]

/-- Witness for C10: the id `"ghost"` is absent from the example store,
and the three sentinel results hold there. -/
theorem C10_missing_id_witness :
    getNodeAbsolutePosition exSt.nodes "ghost" = (0, 0) ∧
    convertCoordinates exSt.nodes "ghost" (some "A") (some "B") = (0, 0) ∧
    isPointInsideNode exSt.nodes "ghost" 7 9 = false := by
  have h := C10_missing_id_sentinels exSt "ghost" (by decide)
  exact ⟨h.1, h.2.1 (some "A") (some "B"), h.2.2 7 9⟩

end Holon
